import Mathlib

/-!
Shallow embedding of `run/scrape_deps_maintainers.py` (the parsing core of
the deb-kg repository): the stanza reader `parse_packages_file`, the record
builder `parse_package_data`, and the batch orchestrator `parse`.

Python strings are modelled as `List Char` (`Str`); Python dicts as
insertion-ordered association lists with `insertD` (update-in-place keeps
the position, a new key is appended — exactly CPython's dict semantics).
-/

abbrev Str := List Char

/-- Python `str.strip()`: drop whitespace from both ends. -/
def strTrim (s : Str) : Str :=
  ((s.dropWhile Char.isWhitespace).reverse.dropWhile Char.isWhitespace).reverse

/-- Python `c in s` for a single character. -/
def strContains (c : Char) (s : Str) : Bool :=
  s.any (· = c)

/-- Python `s.split(sep, 1)` for a single-character separator: split at the
first occurrence; `none` when the separator does not occur. -/
def splitFirst (c : Char) : Str → Option (Str × Str)
  | [] => none
  | a :: rest =>
    if a = c then some ([], rest)
    else (splitFirst c rest).map (fun p => (a :: p.1, p.2))

/-- Python `s.strip(c)` for a single strip character: remove every leading
and trailing occurrence of `c`. -/
def stripCharBoth (c : Char) (s : Str) : Str :=
  ((s.dropWhile (· = c)).reverse.dropWhile (· = c)).reverse

/-- Python `s.lower()` (ASCII fields only in this source). -/
def strLower (s : Str) : Str :=
  s.map Char.toLower

/-- Python `s.startswith(p)` specialised to the two-character prefix tests
used by the source. -/
def startsWith2 (c₁ c₂ : Char) (s : Str) : Bool :=
  match s with
  | a :: b :: _ => a = c₁ && b = c₂
  | _ => false

/-- Python `s.startswith(" ")`. -/
def startsWithSpace (s : Str) : Bool :=
  match s with
  | a :: _ => a = ' '
  | [] => false

/-- Python dict assignment `d[k] = v` on an insertion-ordered association
list: an existing key keeps its position and gets the new value, a new key
is appended at the end. -/
def insertD (k : Str) (v : α) : List (Str × α) → List (Str × α)
  | [] => [(k, v)]
  | (k', v') :: rest =>
    if k' = k then (k, v) :: rest else (k', v') :: insertD k v rest

/-- Python dict lookup `d.get(k)` / `k in d`. -/
def lookupD (k : Str) : List (Str × α) → Option α
  | [] => none
  | (k', v') :: rest => if k' = k then some v' else lookupD k rest

/-- A stanza: the ordered field map accumulated by the stanza reader. -/
abbrev Stanza := List (Str × Str)

/-- One primary dependency: `{"name": ..., "version"?: ...}`. -/
structure DepItem where
  name : Str
  version : Option Str
deriving DecidableEq, Repr

/-- One non-chosen alternative: `{"source": ..., "target": ...}`. -/
structure DepAlias where
  source : Str
  target : Str
deriving DecidableEq, Repr

/-- A value of the `dependencies` dict in the source: either a list of
items (under the lower-cased relation key) or a list of aliases (under the
`<relation>_aliases` key). -/
inductive DepValue where
  | items (l : List DepItem)
  | aliases (l : List DepAlias)
deriving DecidableEq, Repr

structure Maintainer where
  name : Str
  email : Str
deriving DecidableEq, Repr

/-- The record returned by `parse_package_data`. -/
structure PkgRecord where
  name : Str
  version : Str
  dependencies : List (Str × DepValue)
  description : Str
  maintainer : Maintainer
deriving DecidableEq, Repr

/-- The six recognised relation-kind fields, in source order. -/
def dep_fields : List Str :=
  ["Depends".toList, "Pre-Depends".toList, "Recommends".toList,
   "Suggests".toList, "Conflicts".toList, "Breaks".toList]

/-- Body of the clause loop in `parse_package_data` for one comma-separated
clause `dep`: `none` when the clause is dropped (empty after trimming, or a
`${...}` substitution placeholder), otherwise the primary item together
with the aliases contributed by the remaining `|`-alternatives. -/
def parse_dep_clause (dep : Str) : Option (DepItem × List DepAlias) :=
  let dep := strTrim dep
  if dep = [] then none
  else if startsWith2 '$' '\x7b' dep then none
  else
    match dep.splitOn '|' with
    | [] => none
    | mainRaw :: restAlts =>
      let main_dep := strTrim mainRaw
      match main_dep.splitOn '(' with
      | [] => none
      | nv₀ :: nvRest =>
        let name := strTrim nv₀
        let version : Option Str :=
          match nvRest with
          | [] => none
          | v₁ :: _ => some (stripCharBoth ')' v₁)
        some ({ name := name, version := version },
              restAlts.map (fun a => { source := name, target := strTrim a }))

/-- The per-field loop of `parse_package_data`: split the raw field value
on commas and accumulate items and aliases in order. -/
def decompose_field (raw : Str) : List DepItem × List DepAlias :=
  (raw.splitOn ',').foldl
    (fun acc dep =>
      match parse_dep_clause dep with
      | none => acc
      | some (item, als) => (acc.1 ++ [item], acc.2 ++ als))
    ([], [])

/-- One iteration of the `for field in dep_fields` loop: insert the items
under the lower-cased key and, when aliases are non-empty, the aliases
under the `<field>_aliases` key. -/
def depStep (pkg_data : Stanza) (deps : List (Str × DepValue)) (field : Str) :
    List (Str × DepValue) :=
  match lookupD field pkg_data with
  | none => deps
  | some raw =>
    let p := decompose_field raw
    let deps := insertD (strLower field) (DepValue.items p.1) deps
    if p.2 = [] then deps
    else insertD (strLower field ++ "_aliases".toList) (DepValue.aliases p.2) deps

/-- The body of `parse_package_data` once `pkg_data["Package"]` is known to
be `pname`: builds the dependencies dict and the metadata fields. -/
def build_record (pname : Str) (pkg_data : Stanza) : PkgRecord :=
  let dependencies := dep_fields.foldl (depStep pkg_data) []
  let maintainer_info := (lookupD "Maintainer".toList pkg_data).getD []
  let maintainer_name :=
    if strContains '<' maintainer_info then
      strTrim ((maintainer_info.splitOn '<').headD [])
    else maintainer_info
  let maintainer_email :=
    if strContains '<' maintainer_info then
      stripCharBoth '>' ((maintainer_info.splitOn '<').getD 1 [])
    else []
  { name := pname,
    version := (lookupD "Version".toList pkg_data).getD [],
    dependencies := dependencies,
    description := (((lookupD "Description".toList pkg_data).getD []).splitOn '\n').headD [],
    maintainer := { name := maintainer_name, email := maintainer_email } }

/-- `parse_package_data`: `none` exactly when `pkg_data["Package"]` would
raise `KeyError` — the only fallible operation in the Python body. -/
def parse_package_data (pkg_data : Stanza) : Option PkgRecord :=
  (lookupD "Package".toList pkg_data).map (fun pname => build_record pname pkg_data)

/-- Python truthiness of the `head` cap: `if head and len(packages) >= head`. -/
def headHit (head : Option Nat) (n : Nat) : Bool :=
  match head with
  | none => false
  | some h => h ≠ 0 && h ≤ n

/-- The line loop of `parse_packages_file`. Each line is stripped first;
a blank line flushes the accumulator (when it holds a "Package" key) and
checks the cap (`break` = returning immediately); a line containing ":"
and not starting with a space becomes a key/value pair; the
continuation-fold branch (`line.startswith(" ") and current_package`) is
kept verbatim even though the initial strip makes it unreachable; any
other line is dropped. There is no flush after the loop. -/
def parseLoop (head : Option Nat) :
    List Str → List (Str × PkgRecord) → Stanza → List (Str × PkgRecord)
  | [], packages, _ => packages
  | l :: rest, packages, current =>
    let line := strTrim l
    if line = [] then
      match lookupD "Package".toList current with
      | some pkg_name =>
        let packages := insertD pkg_name (build_record pkg_name current) packages
        if headHit head packages.length then packages
        else parseLoop head rest packages []
      | none => parseLoop head rest packages []
    else if strContains ':' line && !startsWithSpace line then
      match splitFirst ':' line with
      | some kv => parseLoop head rest packages (insertD (strTrim kv.1) (strTrim kv.2) current)
      | none => parseLoop head rest packages current
    else if startsWithSpace line && current ≠ [] then
      match (current.map Prod.fst).getLast? with
      | some last_key =>
        let old := (lookupD last_key current).getD []
        parseLoop head rest packages (insertD last_key (old ++ ' ' :: strTrim line) current)
      | none => parseLoop head rest packages current
    else parseLoop head rest packages current

/-- `parse_packages_file(path, head)`: the input is modelled as the list of
decoded text lines (gzip decoding is external I/O). -/
def parse_packages_file (lines : List Str) (head : Option Nat) :
    List (Str × PkgRecord) :=
  parseLoop head lines [] []

/-- The `parse` command's accumulation loop: for each cache file in order,
parse it with the same `head` and append every record value to
`all_packages`. -/
def parse (streams : List (List Str)) (head : Option Nat) : List PkgRecord :=
  (streams.map (fun f => (parse_packages_file f head).map Prod.snd)).flatten

/-- Minimal JSON AST for the serialized output shape. -/
inductive Json where
  | str (s : Str)
  | arr (l : List Json)
  | obj (l : List (Str × Json))

/-- Serialization of one dependency item, as the Python dict would dump:
`{"name": ...}` plus `"version"` only when present. -/
def depItemJson (it : DepItem) : Json :=
  Json.obj (("name".toList, Json.str it.name) ::
    (match it.version with
     | none => []
     | some v => [("version".toList, Json.str v)]))

def depAliasJson (al : DepAlias) : Json :=
  Json.obj [("source".toList, Json.str al.source), ("target".toList, Json.str al.target)]

def depValueJson : DepValue → Json
  | DepValue.items l => Json.arr (l.map depItemJson)
  | DepValue.aliases l => Json.arr (l.map depAliasJson)

/-- Serialization of the `dependencies` dict of a record. -/
def dependenciesJson (r : PkgRecord) : Json :=
  Json.obj (r.dependencies.map (fun kv => (kv.1, depValueJson kv.2)))

/-- Lookup of a key inside a serialized JSON object. -/
def jsonLookup (k : Str) : Json → Option Json
  | Json.obj l => lookupD k l
  | _ => none

/-! ### Association-list (Python dict) lemmas -/

theorem insertD_length_le (k : Str) (v : α) :
    ∀ l : List (Str × α), (insertD k v l).length ≤ l.length + 1
  | [] => by simp [insertD]
  | (k', v') :: t => by
    by_cases h : k' = k
    · simp [insertD, h]
    · simpa [insertD, h] using insertD_length_le k v t

theorem lookupD_insertD_self (k : Str) (v : α) :
    ∀ l : List (Str × α), lookupD k (insertD k v l) = some v
  | [] => by simp [insertD, lookupD]
  | (k', v') :: t => by
    by_cases h : k' = k
    · simp [insertD, h, lookupD]
    · simp [insertD, h, lookupD, lookupD_insertD_self k v t]

theorem lookupD_insertD_ne (k k' : Str) (h : k' ≠ k) (v : α) :
    ∀ l : List (Str × α), lookupD k (insertD k' v l) = lookupD k l
  | [] => by simp [insertD, lookupD, h]
  | (k'', v'') :: t => by
    by_cases h' : k'' = k'
    · subst h'
      simp [insertD, lookupD, h]
    · by_cases h'' : k'' = k
      · simp [insertD, h', lookupD, h'', Ne.symm h]
      · simp [insertD, h', lookupD, h'', lookupD_insertD_ne k k' h v t]

/-! ### Trimming lemmas -/

theorem length_dropWhile_le (p : α → Bool) :
    ∀ l : List α, (List.dropWhile p l).length ≤ l.length
  | [] => by simp
  | a :: t => by
    by_cases h : p a
    · simp only [List.dropWhile_cons, h, if_true]
      exact Nat.le_succ_of_le (length_dropWhile_le p t)
    · simp [List.dropWhile_cons, h]

theorem strTrim_length_le (s : Str) : (strTrim s).length ≤ s.length := by
  unfold strTrim
  calc (((s.dropWhile Char.isWhitespace).reverse.dropWhile Char.isWhitespace).reverse).length
      = ((s.dropWhile Char.isWhitespace).reverse.dropWhile Char.isWhitespace).length := by
        simp
    _ ≤ (s.dropWhile Char.isWhitespace).reverse.length := length_dropWhile_le _ _
    _ = (s.dropWhile Char.isWhitespace).length := by simp
    _ ≤ s.length := length_dropWhile_le _ _

theorem strTrim_cons_ws (c : Char) (v : Str) (h : c.isWhitespace = true) :
    strTrim (c :: v) = strTrim v := by
  simp [strTrim, List.dropWhile_cons, h]

theorem strTrim_eq_self (s : Str)
    (h₁ : ∀ c, s.head? = some c → c.isWhitespace = false)
    (h₂ : ∀ c, s.getLast? = some c → c.isWhitespace = false) : strTrim s = s := by
  unfold strTrim
  have d₁ : List.dropWhile Char.isWhitespace s = s := by
    cases s with
    | nil => rfl
    | cons a t => simp [List.dropWhile_cons, h₁ a rfl]
  rw [d₁]
  have d₂ : List.dropWhile Char.isWhitespace s.reverse = s.reverse := by
    cases hs : s.reverse with
    | nil => rfl
    | cons a t =>
      have ha : s.getLast? = some a := by
        rw [← List.head?_reverse, hs]; rfl
      simp [List.dropWhile_cons, h₂ a ha]
  rw [d₂, List.reverse_reverse]

theorem strTrim_append_ws (s w : Str) (hw : ∀ c ∈ w, c.isWhitespace = true) :
    strTrim (s ++ w) = strTrim s := by
  unfold strTrim
  have hw' : List.dropWhile Char.isWhitespace w = [] :=
    List.dropWhile_eq_nil_iff.mpr hw
  rw [List.dropWhile_append]
  by_cases he : (List.dropWhile Char.isWhitespace s).isEmpty
  · rw [if_pos he, hw']
    have : List.dropWhile Char.isWhitespace s = [] := by
      cases hh : List.dropWhile Char.isWhitespace s
      · rfl
      · rw [hh] at he; simp [List.isEmpty] at he
    rw [this]
  · rw [if_neg he, List.reverse_append, List.dropWhile_append]
    have hwr : List.dropWhile Char.isWhitespace w.reverse = [] :=
      List.dropWhile_eq_nil_iff.mpr (fun c hc => hw c (List.mem_reverse.mp hc))
    rw [hwr]
    simp

theorem head_not_ws_of_trimmed (v : Str) (h : strTrim v = v) :
    ∀ c, v.head? = some c → c.isWhitespace = false := by
  intro c hc
  cases v with
  | nil => simp at hc
  | cons a t =>
    have ha : a = c := by simpa using hc
    subst ha
    by_contra hws
    have hws' : a.isWhitespace = true := by
      cases hb : a.isWhitespace
      · exact absurd hb hws
      · rfl
    have h1 : strTrim (a :: t) = strTrim t := strTrim_cons_ws a t hws'
    have h2 : (strTrim t).length ≤ t.length := strTrim_length_le t
    rw [h] at h1
    have : (a :: t).length ≤ t.length := h1 ▸ h2
    simp at this

theorem last_not_ws_of_trimmed (v : Str) (h : strTrim v = v) :
    ∀ c, v.getLast? = some c → c.isWhitespace = false := by
  intro c hc
  by_contra hws
  have hws' : c.isWhitespace = true := by
    cases hb : c.isWhitespace
    · exact absurd hb hws
    · rfl
  have hvne : v ≠ [] := by intro e; rw [e] at hc; simp at hc
  have hgl : v.getLast hvne = c := by
    rw [List.getLast?_eq_getLast v hvne] at hc
    exact Option.some.inj hc
  have hsplit : v.dropLast ++ [c] = v := by
    rw [← hgl]; exact List.dropLast_append_getLast hvne
  have h1 : strTrim v = strTrim v.dropLast := by
    rw [← hsplit, strTrim_append_ws v.dropLast [c] (by simpa using hws'), hsplit]
  have h2 : (strTrim v.dropLast).length ≤ v.dropLast.length := strTrim_length_le _
  rw [h] at h1
  have h3 : v.length ≤ v.dropLast.length := by
    nth_rewrite 1 [h1]
    exact h2
  rw [List.length_dropLast] at h3
  have : 0 < v.length := List.length_pos.mpr hvne
  omega

/-! ### Splitting lemmas -/

theorem splitFirst_append (c : Char) (ys : Str) :
    ∀ xs : Str, c ∉ xs → splitFirst c (xs ++ c :: ys) = some (xs, ys)
  | [], _ => by simp [splitFirst]
  | a :: t, h => by
    have ha : a ≠ c := fun e => h (e ▸ List.mem_cons_self a t)
    have ht : c ∉ t := fun hm => h (List.mem_cons_of_mem a hm)
    simp [splitFirst, ha, splitFirst_append c ys t ht]

theorem splitOn_single (c : Char) (s : Str) (h : ∀ x ∈ s, x ≠ c) :
    s.splitOn c = [s] := by
  simp only [List.splitOn]
  exact List.splitOnP_eq_single _ _ (by intro x hx; simpa using h x hx)

theorem splitOn_sep (c : Char) (xs as : Str) (h : ∀ x ∈ xs, x ≠ c) :
    (xs ++ c :: as).splitOn c = xs :: as.splitOn c := by
  simp only [List.splitOn]
  exact List.splitOnP_first _ _ (by intro x hx; simpa using h x hx) c (by simp) as

theorem stripCharBoth_append_single (c : Char) (s : Str) (h : ∀ x ∈ s, x ≠ c) :
    stripCharBoth c (s ++ [c]) = s := by
  cases s with
  | nil => simp [stripCharBoth, List.dropWhile_cons]
  | cons a t =>
    unfold stripCharBoth
    have hd : List.dropWhile (· = c) ((a :: t) ++ [c]) = (a :: t) ++ [c] := by
      simp [List.dropWhile_cons, h a (List.mem_cons_self a t)]
    rw [hd, List.reverse_append]
    simp only [List.reverse_cons, List.reverse_nil, List.nil_append, List.singleton_append,
      List.dropWhile_cons]
    rw [if_pos (by simp)]
    have hr : List.dropWhile (· = c) (t.reverse ++ [a]) = t.reverse ++ [a] := by
      cases hs : t.reverse ++ [a] with
      | nil => rfl
      | cons b u =>
        have hb : b ∈ a :: t := by
          have hs' : (a :: t).reverse = b :: u := by rw [List.reverse_cons]; exact hs
          rw [← List.mem_reverse, hs']; exact List.mem_cons_self b u
        simp [List.dropWhile_cons, h b hb]
    rw [hr, ← List.reverse_cons, List.reverse_reverse]

/-! ### Claim theorems: concrete evaluations -/

/-- C1: the code strips each line before dispatching on it, so the
continuation line " bar" becomes "bar", matches no branch and is dropped:
the stanza's Depends value stays "foo," and decomposes into the single
item `foo`, not into `foo` and `bar` as the claim states. -/
theorem c1_continuation_line_dropped :
    (parse_packages_file
      ["Package: p".toList, "Depends: foo,".toList, " bar".toList, []] none).map
      (fun kv => (kv.1, lookupD "depends".toList kv.2.dependencies)) =
    [("p".toList, some (DepValue.items [{ name := "foo".toList, version := none }]))] := by
  decide

/-- C2 counterexample: a package name already recorded from an earlier
stanza IS overwritten by a later one (CPython dict assignment), so the
stanza reader keeps version "2", not "1"; and across two files `parse`
keeps both records in a list instead of mapping the name to one record. -/
theorem c2_counterexample :
    ((lookupD "foo".toList (parse_packages_file
        ["Package: foo".toList, "Version: 1".toList, [],
         "Package: foo".toList, "Version: 2".toList, []] none)).map PkgRecord.version
      = some "2".toList) ∧
    ((parse [["Package: foo".toList, "Version: 1".toList, []],
             ["Package: foo".toList, "Version: 2".toList, []]] none).map PkgRecord.version
      = ["1".toList, "2".toList]) := by
  decide

/-- C3 counterexample: the cap is applied per stream, not globally — two
streams of one stanza each, parsed with cap 1, produce 2 records in total,
and the second stream is still processed. -/
theorem c3_counterexample :
    (parse [["Package: a".toList, []], ["Package: b".toList, []]] (some 1)).length = 2 := by
  decide

/-- C4 counterexample: there is no end-of-stream flush — a file whose last
stanza is not followed by a blank line yields no record for that stanza. -/
theorem c4_counterexample :
    parse_packages_file ["Package: foo".toList] none = [] := by
  decide

/-- C5 counterexample: a `Suggests` field that is empty after filtering is
serialized as `"suggests": []` (a bare empty array, with no
`suggests_aliases` key), not as the object `{"items": [], "aliases": []}`
the claim states. -/
theorem c5_counterexample :
    ((parse_package_data [("Package".toList, "p".toList), ("Suggests".toList, [])]).map
      (fun r => (jsonLookup "suggests".toList (dependenciesJson r),
                 lookupD "suggests_aliases".toList r.dependencies))
      = some (some (Json.arr []), none)) ∧
    Json.arr [] ≠ Json.obj [("items".toList, Json.arr []), ("aliases".toList, Json.arr [])] :=
  ⟨rfl, fun h => Json.noConfusion h⟩

/-- C7 counterexample: the email is everything after the first "<" with
leading/trailing ">" stripped, so for "Jane <a@x> z" the code returns
"a@x> z", not the text "a@x" inside the first angle-bracket pair. -/
theorem c7_counterexample :
    ((parse_package_data [("Package".toList, "p".toList),
        ("Maintainer".toList, "Jane <a@x> z".toList)]).map
      (fun r => r.maintainer.email) = some "a@x> z".toList) ∧
    "a@x> z".toList ≠ "a@x".toList := by
  decide

/-- C8: for every stanza containing a "Package" key, building the package
record succeeds — `pkg_data["Package"]` is the only fallible operation in
`parse_package_data`, every other step is total, so a best-effort record
is always returned. -/
theorem c8_never_raises (s : Stanza)
    (h : (lookupD "Package".toList s).isSome = true) :
    (parse_package_data s).isSome = true := by
  cases ho : lookupD "Package".toList s with
  | none => rw [ho] at h; simp at h
  | some pname =>
    unfold parse_package_data
    rw [ho]
    rfl

theorem c8_witness :
    ((lookupD "Package".toList ([("Package".toList, "p".toList)] : Stanza)).isSome = true) ∧
    ((parse_package_data [("Package".toList, "p".toList)]).isSome = true) :=
  ⟨by decide, c8_never_raises [("Package".toList, "p".toList)] (by decide)⟩

/-- C9: the record builder and the dependency decomposer are pure
functions of their input — two runs on equal inputs yield identical
outputs. -/
theorem c9_deterministic (s₁ s₂ : Stanza) (f₁ f₂ : Str)
    (hs : s₁ = s₂) (hf : f₁ = f₂) :
    parse_package_data s₁ = parse_package_data s₂ ∧
    decompose_field f₁ = decompose_field f₂ := by
  subst hs; subst hf; exact ⟨rfl, rfl⟩

theorem c9_witness :
    parse_package_data [("Package".toList, "p".toList)]
      = parse_package_data [("Package".toList, "p".toList)] ∧
    decompose_field "a (>= 1.0) | b".toList = decompose_field "a (>= 1.0) | b".toList :=
  c9_deterministic _ _ _ _ rfl rfl

/-- C10: for a stanza holding a "Package" key, an absent Version,
Description or Maintainer field is defaulted to the empty string (and the
empty maintainer name/email pair) in the returned record. -/
theorem c10_missing_metadata_defaults (s : Stanza) (pname : Str)
    (h : lookupD "Package".toList s = some pname) :
    (lookupD "Version".toList s = none →
      (parse_package_data s).map PkgRecord.version = some []) ∧
    (lookupD "Description".toList s = none →
      (parse_package_data s).map PkgRecord.description = some []) ∧
    (lookupD "Maintainer".toList s = none →
      (parse_package_data s).map PkgRecord.maintainer = some ⟨[], []⟩) := by
  refine ⟨fun hv => ?_, fun hd => ?_, fun hm => ?_⟩
  · unfold parse_package_data
    rw [h]
    simp only [Option.map_some', build_record]
    rw [hv]
    rfl
  · unfold parse_package_data
    rw [h]
    simp only [Option.map_some', build_record]
    rw [hd]
    rfl
  · unfold parse_package_data
    rw [h]
    simp only [Option.map_some', build_record]
    rw [hm]
    rfl

theorem c10_witness :
    ((parse_package_data [("Package".toList, "p".toList)]).map PkgRecord.version = some []) ∧
    ((parse_package_data [("Package".toList, "p".toList)]).map PkgRecord.description = some []) ∧
    ((parse_package_data [("Package".toList, "p".toList)]).map PkgRecord.maintainer
      = some ⟨[], []⟩) :=
  ⟨(c10_missing_metadata_defaults [("Package".toList, "p".toList)] "p".toList rfl).1 rfl,
   (c10_missing_metadata_defaults [("Package".toList, "p".toList)] "p".toList rfl).2.1 rfl,
   (c10_missing_metadata_defaults [("Package".toList, "p".toList)] "p".toList rfl).2.2 rfl⟩

/-! ### Line-loop lemmas -/

theorem parseLoop_all_nonblank (head : Option Nat) :
    ∀ (t : List Str) (packages : List (Str × PkgRecord)) (current : Stanza),
      (∀ l ∈ t, strTrim l ≠ []) → parseLoop head t packages current = packages
  | [], _, _, _ => rfl
  | l :: t, packages, current, h => by
    have hl : strTrim l ≠ [] := h l (List.mem_cons_self l t)
    have ht : ∀ x ∈ t, strTrim x ≠ [] := fun x hx => h x (List.mem_cons_of_mem l hx)
    simp only [parseLoop]
    rw [if_neg hl]
    repeat' split
    all_goals exact parseLoop_all_nonblank head t packages _ ht

theorem parseLoop_append_nonblank (head : Option Nat) :
    ∀ (ls trailing : List Str) (packages : List (Str × PkgRecord)) (current : Stanza),
      (∀ l ∈ trailing, strTrim l ≠ []) →
      parseLoop head (ls ++ trailing) packages current = parseLoop head ls packages current
  | [], trailing, packages, current, h => by
    rw [List.nil_append]
    exact parseLoop_all_nonblank head trailing packages current h
  | l :: ls, trailing, packages, current, h => by
    rw [List.cons_append]
    simp only [parseLoop]
    repeat' split
    all_goals first
      | rfl
      | exact parseLoop_append_nonblank head ls trailing _ _ h

/-- C4 amended: there is no end-of-stream flush, so an unterminated final
stanza contributes nothing — lines after the last blank line (any suffix of
non-blank lines) never change the output of the stanza reader. -/
theorem c4_amended_no_final_flush (lines trailing : List Str) (head : Option Nat)
    (h : ∀ l ∈ trailing, strTrim l ≠ []) :
    parse_packages_file (lines ++ trailing) head = parse_packages_file lines head :=
  parseLoop_append_nonblank head lines trailing [] [] h

theorem c4_witness :
    parse_packages_file (["Package: a".toList, []] ++ ["Package: foo".toList]) none
      = parse_packages_file ["Package: a".toList, []] none :=
  c4_amended_no_final_flush ["Package: a".toList, []] ["Package: foo".toList] none (by decide)

theorem parseLoop_length_le (n : Nat) (hn : 0 < n) :
    ∀ (lines : List Str) (packages : List (Str × PkgRecord)) (current : Stanza),
      packages.length < n → (parseLoop (some n) lines packages current).length ≤ n
  | [], packages, current, h => by
    simpa [parseLoop] using Nat.le_of_lt h
  | l :: rest, packages, current, h => by
    simp only [parseLoop]
    by_cases hb : strTrim l = []
    · rw [if_pos hb]
      cases hlk : lookupD "Package".toList current with
      | some pkg_name =>
        simp only []
        by_cases hh :
            headHit (some n) (insertD pkg_name (build_record pkg_name current) packages).length
        · rw [if_pos hh]
          exact le_trans (insertD_length_le _ _ _) (by omega)
        · rw [if_neg hh]
          apply parseLoop_length_le n hn rest
          simp only [headHit, Bool.and_eq_true, decide_eq_true_eq, ne_eq] at hh
          omega
      | none => exact parseLoop_length_le n hn rest packages [] h
    · rw [if_neg hb]
      repeat' split
      all_goals exact parseLoop_length_le n hn rest packages _ h

theorem parseLoop_break_append (n : Nat) :
    ∀ (lines more : List Str) (packages : List (Str × PkgRecord)) (current : Stanza),
      packages.length < n → n ≤ (parseLoop (some n) lines packages current).length →
      parseLoop (some n) (lines ++ more) packages current
        = parseLoop (some n) lines packages current
  | [], more, packages, current, hlt, hge => by
    simp only [parseLoop] at hge
    omega
  | l :: rest, more, packages, current, hlt, hge => by
    rw [List.cons_append]
    simp only [parseLoop] at hge ⊢
    by_cases hb : strTrim l = []
    · rw [if_pos hb] at hge
      rw [if_pos hb, if_pos hb]
      cases hlk : lookupD "Package".toList current with
      | some pkg_name =>
        rw [hlk] at hge
        simp only [] at hge ⊢
        by_cases hh :
            headHit (some n) (insertD pkg_name (build_record pkg_name current) packages).length
        · rw [if_pos hh, if_pos hh]
        · rw [if_neg hh] at hge
          rw [if_neg hh, if_neg hh]
          apply parseLoop_break_append n rest more _ []
          · simp only [headHit, Bool.and_eq_true, decide_eq_true_eq, ne_eq] at hh
            omega
          · exact hge
      | none =>
        rw [hlk] at hge
        simp only [] at hge ⊢
        exact parseLoop_break_append n rest more packages [] hlt hge
    · rw [if_neg hb] at hge
      rw [if_neg hb, if_neg hb]
      by_cases hc : (strContains ':' (strTrim l) && !startsWithSpace (strTrim l)) = true
      · rw [if_pos hc] at hge
        rw [if_pos hc, if_pos hc]
        cases hsf : splitFirst ':' (strTrim l) with
        | some kv =>
          rw [hsf] at hge
          simp only [] at hge ⊢
          exact parseLoop_break_append n rest more packages _ hlt hge
        | none =>
          rw [hsf] at hge
          simp only [] at hge ⊢
          exact parseLoop_break_append n rest more packages current hlt hge
      · rw [if_neg hc] at hge
        rw [if_neg hc, if_neg hc]
        by_cases hs : (startsWithSpace (strTrim l) && decide (current ≠ [])) = true
        · rw [if_pos hs] at hge
          rw [if_pos hs, if_pos hs]
          cases hgl : (current.map Prod.fst).getLast? with
          | some last_key =>
            rw [hgl] at hge
            simp only [] at hge ⊢
            exact parseLoop_break_append n rest more packages _ hlt hge
          | none =>
            rw [hgl] at hge
            simp only [] at hge ⊢
            exact parseLoop_break_append n rest more packages current hlt hge
        · rw [if_neg hs] at hge
          rw [if_neg hs, if_neg hs]
          exact parseLoop_break_append n rest more packages current hlt hge

theorem parse_length_le (n : Nat) (hn : 0 < n) :
    ∀ streams : List (List Str), (parse streams (some n)).length ≤ n * streams.length
  | [] => by simp [parse]
  | s :: t => by
    have h₁ : (parse_packages_file s (some n)).length ≤ n :=
      parseLoop_length_le n hn s [] [] (by simpa using hn)
    have h₂ : (parse t (some n)).length ≤ n * t.length := parse_length_le n hn t
    have e : parse (s :: t) (some n)
        = (parse_packages_file s (some n)).map Prod.snd ++ parse t (some n) := rfl
    rw [e, List.length_append, List.length_map, List.length_cons, Nat.mul_succ,
      Nat.add_comm (n * t.length) n]
    exact Nat.add_le_add h₁ h₂

/-- C3 amended: the cap is enforced per stream, not globally — a stream
parsed with cap `n > 0` yields at most `n` records and, once its own cap
is reached, consumes no further lines of that stream; but every subsequent
stream is still processed with its own cap of `n`, so the combined output
of `parse` is only bounded by `n` times the number of streams. -/
theorem c3_amended_cap_per_stream (n : Nat) (lines more : List Str)
    (streams : List (List Str)) (hn : 0 < n) :
    (parse_packages_file lines (some n)).length ≤ n ∧
    (parse streams (some n)).length ≤ n * streams.length ∧
    (n ≤ (parse_packages_file lines (some n)).length →
      parse_packages_file (lines ++ more) (some n) = parse_packages_file lines (some n)) := by
  refine ⟨parseLoop_length_le n hn lines [] [] (by simpa using hn),
    parse_length_le n hn streams, fun hge => ?_⟩
  exact parseLoop_break_append n lines more [] [] (by simpa using hn) hge

theorem c3_witness :
    (parse_packages_file ["Package: a".toList, []] (some 1)).length ≤ 1 ∧
    (parse [["Package: a".toList, []], ["Package: b".toList, []]] (some 1)).length
      ≤ 1 * ([["Package: a".toList, []], ["Package: b".toList, []]] : List (List Str)).length ∧
    parse_packages_file (["Package: a".toList, []] ++ ["Package: x".toList, []]) (some 1)
      = parse_packages_file ["Package: a".toList, []] (some 1) :=
  ⟨(c3_amended_cap_per_stream 1 ["Package: a".toList, []] ["Package: x".toList, []]
      [["Package: a".toList, []], ["Package: b".toList, []]] (by decide)).1,
   (c3_amended_cap_per_stream 1 ["Package: a".toList, []] ["Package: x".toList, []]
      [["Package: a".toList, []], ["Package: b".toList, []]] (by decide)).2.1,
   (c3_amended_cap_per_stream 1 ["Package: a".toList, []] ["Package: x".toList, []]
      [["Package: a".toList, []], ["Package: b".toList, []]] (by decide)).2.2 (by decide)⟩

theorem parseLoop_pkgline (head : Option Nat) (rest : List Str)
    (packages : List (Str × PkgRecord)) (current : Stanza) :
    parseLoop head ("Package: foo".toList :: rest) packages current =
    parseLoop head rest packages (insertD "Package".toList "foo".toList current) := rfl

theorem parseLoop_blank_foo (rest : List Str) (packages : List (Str × PkgRecord)) (v : Str) :
    parseLoop none ([] :: rest) packages
      [("Package".toList, "foo".toList), ("Version".toList, v)] =
    parseLoop none rest
      (insertD "foo".toList
        (build_record "foo".toList [("Package".toList, "foo".toList), ("Version".toList, v)])
        packages) [] := rfl

theorem parseLoop_verline (head : Option Nat) (v : Str) (hv : strTrim v = v) (hne : v ≠ [])
    (rest : List Str) (packages : List (Str × PkgRecord)) (current : Stanza) :
    parseLoop head (("Version: ".toList ++ v) :: rest) packages current =
    parseLoop head rest packages (insertD "Version".toList v current) := by
  have hlast : ∀ c, v.getLast? = some c → c.isWhitespace = false := last_not_ws_of_trimmed v hv
  have htrim : strTrim ("Version: ".toList ++ v) = "Version: ".toList ++ v := by
    apply strTrim_eq_self
    · intro c hc
      rw [List.head?_append_of_ne_nil _ (by decide)] at hc
      have h' : ("Version: ".toList).head? = some 'V' := rfl
      rw [h'] at hc
      cases hc
      decide
    · intro c hc
      rw [List.getLast?_append_of_ne_nil _ hne] at hc
      exact hlast c hc
  have e₂ : splitFirst ':' ("Version: ".toList ++ v) = some ("Version".toList, ' ' :: v) := by
    have e : "Version: ".toList ++ v = "Version".toList ++ ':' :: ' ' :: v := rfl
    rw [e]
    exact splitFirst_append ':' (' ' :: v) "Version".toList (by decide)
  have e₃ : strTrim (' ' :: v) = v := (strTrim_cons_ws ' ' v (by decide)).trans hv
  have e₄ : (strContains ':' ("Version: ".toList ++ v)
      && !startsWithSpace ("Version: ".toList ++ v)) = true := by
    have c₁ : strContains ':' ("Version: ".toList ++ v) = true := by
      unfold strContains
      rw [List.any_append]
      have : ("Version: ".toList).any (· = ':') = true := rfl
      rw [this, Bool.true_or]
    have c₂ : startsWithSpace ("Version: ".toList ++ v) = false := rfl
    rw [c₁, c₂]
    rfl
  have e₀ : ¬("Version: ".toList ++ v = ([] : Str)) := by simp
  simp only [parseLoop]
  simp only [htrim]
  rw [if_neg e₀, if_pos e₄, e₂]
  show parseLoop head rest packages
    (insertD (strTrim "Version".toList) (strTrim (' ' :: v)) current) = _
  rw [show strTrim "Version".toList = "Version".toList from rfl, e₃]

theorem parseLoop_run_foo_stanza (v : Str) (hv : strTrim v = v) (hne : v ≠ [])
    (rest : List Str) (packages : List (Str × PkgRecord)) :
    parseLoop none ("Package: foo".toList :: ("Version: ".toList ++ v) :: [] :: rest)
      packages [] =
    parseLoop none rest
      (insertD "foo".toList
        (build_record "foo".toList [("Package".toList, "foo".toList), ("Version".toList, v)])
        packages) [] := by
  rw [parseLoop_pkgline, parseLoop_verline none v hv hne]
  exact parseLoop_blank_foo rest packages v

/-- C2 amended: within one stream the mapping is last-seen-wins — a later
stanza with the same package name overwrites the earlier record in place —
and across streams `parse` concatenates every stream's records, so package
"foo" with versions v1 and v2 in files [A, B] contributes both records in
order, while a single stream containing both stanzas keeps only v2. -/
theorem c2_amended_last_seen_wins (v₁ v₂ : Str)
    (h₁ : strTrim v₁ = v₁) (h₂ : strTrim v₂ = v₂) (hn₁ : v₁ ≠ []) (hn₂ : v₂ ≠ []) :
    ((parse [["Package: foo".toList, "Version: ".toList ++ v₁, []],
             ["Package: foo".toList, "Version: ".toList ++ v₂, []]] none).map PkgRecord.version
      = [v₁, v₂]) ∧
    ((parse_packages_file
        ["Package: foo".toList, "Version: ".toList ++ v₁, [],
         "Package: foo".toList, "Version: ".toList ++ v₂, []] none).map
        (fun kv => (kv.1, kv.2.version))
      = [("foo".toList, v₂)]) := by
  constructor
  · have eA : parse_packages_file
        ["Package: foo".toList, "Version: ".toList ++ v₁, []] none
        = [("foo".toList, build_record "foo".toList
            [("Package".toList, "foo".toList), ("Version".toList, v₁)])] := by
      unfold parse_packages_file
      rw [parseLoop_run_foo_stanza v₁ h₁ hn₁]
      rfl
    have eB : parse_packages_file
        ["Package: foo".toList, "Version: ".toList ++ v₂, []] none
        = [("foo".toList, build_record "foo".toList
            [("Package".toList, "foo".toList), ("Version".toList, v₂)])] := by
      unfold parse_packages_file
      rw [parseLoop_run_foo_stanza v₂ h₂ hn₂]
      rfl
    have e : parse [["Package: foo".toList, "Version: ".toList ++ v₁, []],
                    ["Package: foo".toList, "Version: ".toList ++ v₂, []]] none
        = (parse_packages_file
            ["Package: foo".toList, "Version: ".toList ++ v₁, []] none).map Prod.snd ++
          ((parse_packages_file
            ["Package: foo".toList, "Version: ".toList ++ v₂, []] none).map Prod.snd ++ []) := rfl
    rw [e, eA, eB]
    rfl
  · unfold parse_packages_file
    rw [parseLoop_run_foo_stanza v₁ h₁ hn₁, parseLoop_run_foo_stanza v₂ h₂ hn₂]
    rfl


theorem c2_witness :
    ((parse [["Package: foo".toList, "Version: ".toList ++ "1".toList, []],
             ["Package: foo".toList, "Version: ".toList ++ "2".toList, []]] none).map
        PkgRecord.version = ["1".toList, "2".toList]) ∧
    ((parse_packages_file
        ["Package: foo".toList, "Version: ".toList ++ "1".toList, [],
         "Package: foo".toList, "Version: ".toList ++ "2".toList, []] none).map
        (fun kv => (kv.1, kv.2.version))
      = [("foo".toList, "2".toList)]) :=
  c2_amended_last_seen_wins "1".toList "2".toList (by decide) (by decide) (by decide) (by decide)

/-- C7 amended: with angle brackets present, the name is the trimmed text
before the first "<" and the email is the text following the first "<" (up
to the next "<" if any) with leading/trailing ">" characters stripped — for
a field of the shape `name<email>` ending at the closing bracket this is
exactly the text inside the first angle-bracket pair; with no angle
brackets the name is the full field and the email is empty. -/
theorem c7_amended_maintainer_split (s₁ s₂ : Stanza) (p₁ p₂ n e info : Str)
    (h₁ : lookupD "Maintainer".toList s₁ = some (n ++ '<' :: (e ++ ['>'])))
    (hn : ∀ x ∈ n, x ≠ '<') (he : ∀ x ∈ e, x ≠ '<') (he' : ∀ x ∈ e, x ≠ '>')
    (h₂ : lookupD "Maintainer".toList s₂ = some info)
    (hi : strContains '<' info = false) :
    (build_record p₁ s₁).maintainer = ⟨strTrim n, e⟩ ∧
    (build_record p₂ s₂).maintainer = ⟨info, []⟩ := by
  constructor
  · have hc : strContains '<' (n ++ '<' :: (e ++ ['>'])) = true := by
      unfold strContains
      rw [List.any_append]
      have h' : ('<' :: (e ++ ['>'])).any (· = '<') = true := by
        simp [List.any_cons]
      rw [h', Bool.or_true]
    have hsp : (n ++ '<' :: (e ++ ['>'])).splitOn '<' = n :: [e ++ ['>']] := by
      rw [splitOn_sep '<' n (e ++ ['>']) hn]
      rw [splitOn_single '<' (e ++ ['>'])]
      intro x hx
      rcases List.mem_append.mp hx with hxe | hxg
      · exact he x hxe
      · rw [List.mem_singleton.mp hxg]
        decide
    simp only [build_record]
    rw [h₁]
    simp only [Option.getD_some]
    rw [if_pos hc, if_pos hc, hsp]
    simp only [List.headD_cons]
    rw [show (n :: [e ++ ['>']]).getD 1 [] = e ++ ['>'] from rfl]
    rw [stripCharBoth_append_single '>' e he']
  · have hi' : ¬(strContains '<' info = true) := by
      rw [hi]
      exact Bool.false_ne_true
    simp only [build_record]
    rw [h₂]
    simp only [Option.getD_some]
    rw [if_neg hi', if_neg hi']


theorem c7_witness :
    (build_record "p".toList [("Package".toList, "p".toList),
        ("Maintainer".toList, "Jane Doe <jane@x.org>".toList)]).maintainer
      = ⟨"Jane Doe".toList, "jane@x.org".toList⟩ ∧
    (build_record "p".toList [("Package".toList, "p".toList),
        ("Maintainer".toList, "Jane Doe".toList)]).maintainer
      = ⟨"Jane Doe".toList, []⟩ :=
  c7_amended_maintainer_split
    [("Package".toList, "p".toList), ("Maintainer".toList, "Jane Doe <jane@x.org>".toList)]
    [("Package".toList, "p".toList), ("Maintainer".toList, "Jane Doe".toList)]
    "p".toList "p".toList "Jane Doe ".toList "jane@x.org".toList "Jane Doe".toList
    (by decide) (by decide) (by decide) (by decide) (by decide) (by decide)

theorem intercalate_singleton (x : Char) (l : Str) : List.intercalate [x] [l] = l := by
  simp [List.intercalate]

theorem intercalate_cons₂ (x : Char) (l₁ l₂ : Str) (t : List Str) :
    List.intercalate [x] (l₁ :: l₂ :: t) = l₁ ++ x :: List.intercalate [x] (l₂ :: t) := by
  simp [List.intercalate]

theorem mem_intercalate_single (x c : Char) :
    ∀ ls : List Str, c ∈ List.intercalate [x] ls → c = x ∨ ∃ l ∈ ls, c ∈ l
  | [] => by simp [List.intercalate]
  | [l] => by
    rw [intercalate_singleton]
    intro h
    exact Or.inr ⟨l, by simp, h⟩
  | l₁ :: l₂ :: t => by
    rw [intercalate_cons₂]
    intro h
    rcases List.mem_append.mp h with h₁ | h₂
    · exact Or.inr ⟨l₁, by simp, h₁⟩
    · rcases List.mem_cons.mp h₂ with rfl | h₃
      · exact Or.inl rfl
      · rcases mem_intercalate_single x c (l₂ :: t) h₃ with h₄ | ⟨l, hl, hc⟩
        · exact Or.inl h₄
        · exact Or.inr ⟨l, List.mem_cons_of_mem _ hl, hc⟩

theorem intercalate_cons_extends (x : Char) (p : Str) (alts : List Str) :
    ∃ r, List.intercalate [x] (p :: alts) = p ++ r := by
  cases alts with
  | nil => exact ⟨[], by rw [intercalate_singleton, List.append_nil]⟩
  | cons a t => exact ⟨x :: List.intercalate [x] (a :: t), intercalate_cons₂ x p a t⟩

theorem startsWith2_eq_false_of_head (c₁ c₂ : Char) (s : Str)
    (h : ∀ c, s.head? = some c → c ≠ c₁) : startsWith2 c₁ c₂ s = false := by
  cases s with
  | nil => rfl
  | cons a t =>
    cases t with
    | nil => rfl
    | cons b u => simp [startsWith2, decide_eq_false (h a rfl), Bool.false_and]

/-- C6: for every clause assembled as `nm (ver)` followed by
`|`-separated alternatives (with whitespace padding `pre` after the
constraint), the first alternative becomes the primary item whose name is
the text before the parenthesis and whose version is the constraint text
verbatim with the parentheses stripped, and every remaining alternative
becomes an alias from the primary's name to the alternative's trimmed
text, in order — e.g. "a (>= 1.0) | b | c" yields item {a, >= 1.0} and
aliases (a,b), (a,c). -/
theorem c6_alternation (nm ver pre : Str) (alts : List Str)
    (hnm_t : strTrim nm = nm) (hnm_ne : nm ≠ [])
    (hnm_par : ∀ x ∈ nm, x ≠ '(') (hnm_bar : ∀ x ∈ nm, x ≠ '|')
    (hnm_com : ∀ x ∈ nm, x ≠ ',') (hnm_dol : ∀ x ∈ nm, x ≠ '$')
    (hv_par : ∀ x ∈ ver, x ≠ '(') (hv_cpar : ∀ x ∈ ver, x ≠ ')')
    (hv_bar : ∀ x ∈ ver, x ≠ '|') (hv_com : ∀ x ∈ ver, x ≠ ',')
    (hpre : ∀ c ∈ pre, c.isWhitespace = true)
    (halts_bar : ∀ a ∈ alts, ∀ x ∈ a, x ≠ '|')
    (halts_com : ∀ a ∈ alts, ∀ x ∈ a, x ≠ ',')
    (hclause : strTrim (List.intercalate ['|']
        ((nm ++ ' ' :: '(' :: (ver ++ ')' :: pre)) :: alts))
      = List.intercalate ['|'] ((nm ++ ' ' :: '(' :: (ver ++ ')' :: pre)) :: alts)) :
    decompose_field
        (List.intercalate ['|'] ((nm ++ ' ' :: '(' :: (ver ++ ')' :: pre)) :: alts))
      = ([{ name := nm, version := some ver }],
         alts.map (fun a => { source := nm, target := strTrim a })) := by
  have hws_bar : ∀ c : Char, c.isWhitespace = true → c ≠ '|' := by
    intro c hc e
    rw [e] at hc
    exact absurd hc (by decide)
  have hws_com : ∀ c : Char, c.isWhitespace = true → c ≠ ',' := by
    intro c hc e
    rw [e] at hc
    exact absurd hc (by decide)
  have hp_mem : ∀ x ∈ nm ++ ' ' :: '(' :: (ver ++ ')' :: pre),
      x ∈ nm ∨ x = ' ' ∨ x = '(' ∨ x ∈ ver ∨ x = ')' ∨ x ∈ pre := by
    intro x hx
    simp only [List.mem_append, List.mem_cons] at hx
    tauto
  have hp_bar : ∀ x ∈ nm ++ ' ' :: '(' :: (ver ++ ')' :: pre), x ≠ '|' := by
    intro x hx
    rcases hp_mem x hx with h | h | h | h | h | h
    · exact hnm_bar x h
    · subst h; decide
    · subst h; decide
    · exact hv_bar x h
    · subst h; decide
    · exact hws_bar x (hpre x h)
  have hp_com : ∀ x ∈ nm ++ ' ' :: '(' :: (ver ++ ')' :: pre), x ≠ ',' := by
    intro x hx
    rcases hp_mem x hx with h | h | h | h | h | h
    · exact hnm_com x h
    · subst h; decide
    · subst h; decide
    · exact hv_com x h
    · subst h; decide
    · exact hws_com x (hpre x h)
  have hcl_com : ∀ x ∈ List.intercalate ['|']
      ((nm ++ ' ' :: '(' :: (ver ++ ')' :: pre)) :: alts), x ≠ ',' := by
    intro x hx
    rcases mem_intercalate_single '|' x _ hx with rfl | ⟨l, hl, hc⟩
    · decide
    · rcases List.mem_cons.mp hl with rfl | hla
      · exact hp_com x hc
      · exact halts_com l hla x hc
  have hsplit : (List.intercalate ['|']
      ((nm ++ ' ' :: '(' :: (ver ++ ')' :: pre)) :: alts)).splitOn '|'
      = (nm ++ ' ' :: '(' :: (ver ++ ')' :: pre)) :: alts := by
    apply List.splitOn_intercalate _ '|'
    · intro l hl
      rcases List.mem_cons.mp hl with rfl | hla
      · exact fun hmem => hp_bar '|' hmem rfl
      · exact fun hmem => halts_bar l hla '|' hmem rfl
    · simp
  obtain ⟨r, hr⟩ := intercalate_cons_extends '|' (nm ++ ' ' :: '(' :: (ver ++ ')' :: pre)) alts
  have hch : (List.intercalate ['|']
      ((nm ++ ' ' :: '(' :: (ver ++ ')' :: pre)) :: alts)).head? = nm.head? := by
    rw [hr, List.append_assoc, List.head?_append_of_ne_nil _ hnm_ne]
  have hcl_ne : List.intercalate ['|'] ((nm ++ ' ' :: '(' :: (ver ++ ')' :: pre)) :: alts) ≠ [] := by
    intro h
    rw [h] at hch
    cases hnm : nm with
    | nil => exact hnm_ne hnm
    | cons a t => rw [hnm] at hch; simp at hch
  have hsw : ¬(startsWith2 '$' '\x7b' (List.intercalate ['|']
      ((nm ++ ' ' :: '(' :: (ver ++ ')' :: pre)) :: alts)) = true) := by
    rw [startsWith2_eq_false_of_head]
    · exact Bool.false_ne_true
    · intro c hc
      rw [hch] at hc
      cases hnmc : nm with
      | nil => exact absurd hnmc hnm_ne
      | cons a t =>
        rw [hnmc] at hc
        simp only [List.head?_cons, Option.some.injEq] at hc
        subst hc
        exact hnm_dol a (by rw [hnmc]; exact List.mem_cons_self a t)
  have hmain : strTrim (nm ++ ' ' :: '(' :: (ver ++ ')' :: pre))
      = nm ++ ' ' :: '(' :: (ver ++ [')']) := by
    have assoc₁ : nm ++ ' ' :: '(' :: (ver ++ ')' :: pre)
        = (nm ++ ' ' :: '(' :: (ver ++ [')'])) ++ pre := by
      simp
    rw [assoc₁, strTrim_append_ws _ pre hpre]
    apply strTrim_eq_self
    · intro c hc
      rw [List.head?_append_of_ne_nil _ hnm_ne] at hc
      exact head_not_ws_of_trimmed nm hnm_t c hc
    · intro c hc
      have assoc₂ : nm ++ ' ' :: '(' :: (ver ++ [')'])
          = (nm ++ ' ' :: '(' :: ver) ++ [')'] := by
        simp
      rw [assoc₂, List.getLast?_append_of_ne_nil _ (by simp)] at hc
      simp only [List.getLast?_singleton, Option.some.injEq] at hc
      subst hc
      decide
  have hnv : (nm ++ ' ' :: '(' :: (ver ++ [')'])).splitOn '('
      = (nm ++ [' ']) :: [ver ++ [')']] := by
    have assoc₃ : nm ++ ' ' :: '(' :: (ver ++ [')'])
        = (nm ++ [' ']) ++ '(' :: (ver ++ [')']) := by
      simp
    rw [assoc₃, splitOn_sep '(' (nm ++ [' ']) (ver ++ [')'])]
    · rw [splitOn_single '(' (ver ++ [')'])]
      intro x hx
      rcases List.mem_append.mp hx with h | h
      · exact hv_par x h
      · rw [List.mem_singleton.mp h]; decide
    · intro x hx
      rcases List.mem_append.mp hx with h | h
      · exact hnm_par x h
      · rw [List.mem_singleton.mp h]; decide
  have hname : strTrim (nm ++ [' ']) = nm := by
    rw [strTrim_append_ws nm [' '] (by intro c hc; rw [List.mem_singleton.mp hc]; rfl)]
    exact hnm_t
  have hver : stripCharBoth ')' (ver ++ [')']) = ver :=
    stripCharBoth_append_single ')' ver hv_cpar
  have hdep : parse_dep_clause (List.intercalate ['|']
      ((nm ++ ' ' :: '(' :: (ver ++ ')' :: pre)) :: alts))
      = some ({ name := nm, version := some ver },
              alts.map (fun a => { source := nm, target := strTrim a })) := by
    simp only [parse_dep_clause, hclause]
    rw [if_neg hcl_ne, if_neg hsw, hsplit]
    simp only []
    rw [hmain, hnv]
    simp only []
    simp only [hname, hver]
  unfold decompose_field
  rw [splitOn_single ',' _ hcl_com]
  simp only [List.foldl_cons, List.foldl_nil, hdep]
  simp only [List.nil_append]


theorem c6_witness :
    decompose_field "a (>= 1.0) | b | c".toList
      = ([{ name := "a".toList, version := some ">= 1.0".toList }],
         [{ source := "a".toList, target := "b".toList },
          { source := "a".toList, target := "c".toList }]) :=
  c6_alternation "a".toList ">= 1.0".toList " ".toList [" b ".toList, " c".toList]
    (by decide) (by decide) (by decide) (by decide) (by decide) (by decide)
    (by decide) (by decide) (by decide) (by decide) (by decide) (by decide)
    (by decide) (by decide)

theorem depStep_skip (s : Stanza) (acc : List (Str × DepValue)) (g k : Str)
    (h₁ : strLower g ≠ k) (h₂ : strLower g ++ "_aliases".toList ≠ k) :
    lookupD k (depStep s acc g) = lookupD k acc := by
  unfold depStep
  cases hg : lookupD g s with
  | none => rfl
  | some raw =>
    simp only []
    by_cases hp : (decompose_field raw).2 = []
    · rw [if_pos hp, lookupD_insertD_ne k (strLower g) h₁]
    · rw [if_neg hp, lookupD_insertD_ne k _ h₂, lookupD_insertD_ne k _ h₁]

theorem lookup_foldl_skip (s : Stanza) (k : Str) :
    ∀ (fields : List Str) (acc : List (Str × DepValue)),
      (∀ g ∈ fields, strLower g ≠ k ∧ strLower g ++ "_aliases".toList ≠ k) →
      lookupD k (fields.foldl (depStep s) acc) = lookupD k acc
  | [], _, _ => rfl
  | g :: t, acc, h => by
    rw [List.foldl_cons,
      lookup_foldl_skip s k t (depStep s acc g) (fun x hx => h x (List.mem_cons_of_mem g hx))]
    exact depStep_skip s acc g k (h g (List.mem_cons_self g t)).1 (h g (List.mem_cons_self g t)).2

theorem depStep_absent (s : Stanza) (acc : List (Str × DepValue)) (g : Str)
    (h : lookupD g s = none) : depStep s acc g = acc := by
  unfold depStep
  rw [h]

theorem depStep_items (s : Stanza) (acc : List (Str × DepValue)) (g raw : Str)
    (h : lookupD g s = some raw)
    (hkey : strLower g ++ "_aliases".toList ≠ strLower g) :
    lookupD (strLower g) (depStep s acc g)
      = some (DepValue.items (decompose_field raw).1) := by
  unfold depStep
  rw [h]
  simp only []
  by_cases hp : (decompose_field raw).2 = []
  · rw [if_pos hp, lookupD_insertD_self]
  · rw [if_neg hp, lookupD_insertD_ne _ _ hkey, lookupD_insertD_self]

theorem depStep_alias_empty (s : Stanza) (acc : List (Str × DepValue)) (g raw : Str)
    (h : lookupD g s = some raw) (hp : (decompose_field raw).2 = [])
    (hkey : strLower g ≠ strLower g ++ "_aliases".toList) :
    lookupD (strLower g ++ "_aliases".toList) (depStep s acc g)
      = lookupD (strLower g ++ "_aliases".toList) acc := by
  unfold depStep
  rw [h]
  simp only []
  rw [if_pos hp, lookupD_insertD_ne _ _ hkey]

/-- C5 amended: a relation-kind key appears in the record's dependencies
mapping iff the corresponding field existed in the source stanza; a field
present but empty after filtering yields an explicitly empty items list
under the lower-cased key (distinct from the key being absent) and NO
`<kind>_aliases` key — aliases live under that separate key, only when
non-empty, not inside an {items, aliases} object under the relation key. -/
theorem c5_amended_presence_and_empty (pname : Str) (s : Stanza) (f : Str)
    (hf : f ∈ dep_fields) :
    ((lookupD (strLower f) ((build_record pname s).dependencies)).isSome
      = (lookupD f s).isSome) ∧
    (∀ raw, lookupD f s = some raw → decompose_field raw = ([], []) →
      lookupD (strLower f) ((build_record pname s).dependencies)
        = some (DepValue.items []) ∧
      lookupD (strLower f ++ "_aliases".toList) ((build_record pname s).dependencies)
        = none) := by
  obtain ⟨pre, post, hsp⟩ := List.append_of_mem hf
  have hnd : dep_fields.Nodup := by decide
  rw [hsp] at hnd
  obtain ⟨hnd_pre, hnd_cons, hdisj⟩ := List.nodup_append.mp hnd
  have hf_not_post : f ∉ post := (List.nodup_cons.mp hnd_cons).1
  have hf_not_pre : f ∉ pre := fun h => hdisj h (List.mem_cons_self f post)
  have hmem_pre : ∀ g ∈ pre, g ∈ dep_fields := fun g hg => by
    rw [hsp]; exact List.mem_append_left _ hg
  have hmem_post : ∀ g ∈ post, g ∈ dep_fields := fun g hg => by
    rw [hsp]; exact List.mem_append_right _ (List.mem_cons_of_mem f hg)
  have hne_pre : ∀ g ∈ pre, f ≠ g := fun g hg e => hf_not_pre (e ▸ hg)
  have hne_post : ∀ g ∈ post, f ≠ g := fun g hg e => hf_not_post (e ▸ hg)
  have hkeys : ∀ x ∈ dep_fields, ∀ g ∈ dep_fields, x ≠ g →
      strLower g ≠ strLower x ∧ strLower g ++ "_aliases".toList ≠ strLower x ∧
      strLower g ≠ strLower x ++ "_aliases".toList ∧
      strLower g ++ "_aliases".toList ≠ strLower x ++ "_aliases".toList := by decide
  have hself : ∀ g ∈ dep_fields, strLower g ++ "_aliases".toList ≠ strLower g := by decide
  have hskip_items : ∀ L : List Str, (∀ g ∈ L, g ∈ dep_fields) → (∀ g ∈ L, f ≠ g) →
      ∀ g ∈ L, strLower g ≠ strLower f ∧ strLower g ++ "_aliases".toList ≠ strLower f :=
    fun L hmem hne g hg =>
      ⟨(hkeys f hf g (hmem g hg) (hne g hg)).1, (hkeys f hf g (hmem g hg) (hne g hg)).2.1⟩
  have hskip_al : ∀ L : List Str, (∀ g ∈ L, g ∈ dep_fields) → (∀ g ∈ L, f ≠ g) →
      ∀ g ∈ L, strLower g ≠ strLower f ++ "_aliases".toList ∧
        strLower g ++ "_aliases".toList ≠ strLower f ++ "_aliases".toList :=
    fun L hmem hne g hg =>
      ⟨(hkeys f hf g (hmem g hg) (hne g hg)).2.2.1, (hkeys f hf g (hmem g hg) (hne g hg)).2.2.2⟩
  have hdeps : (build_record pname s).dependencies = dep_fields.foldl (depStep s) [] := rfl
  rw [hdeps, hsp, List.foldl_append, List.foldl_cons]
  constructor
  · rw [lookup_foldl_skip s (strLower f) post _ (hskip_items post hmem_post hne_post)]
    cases hlk : lookupD f s with
    | some raw =>
      rw [depStep_items s _ f raw hlk (hself f hf)]
      rfl
    | none =>
      rw [depStep_absent s _ f hlk,
        lookup_foldl_skip s (strLower f) pre [] (hskip_items pre hmem_pre hne_pre)]
      rfl
  · intro raw hraw hempty
    constructor
    · rw [lookup_foldl_skip s (strLower f) post _ (hskip_items post hmem_post hne_post),
        depStep_items s _ f raw hraw (hself f hf), hempty]
    · rw [lookup_foldl_skip s (strLower f ++ "_aliases".toList) post _
          (hskip_al post hmem_post hne_post),
        depStep_alias_empty s _ f raw hraw (by rw [hempty]) (Ne.symm (hself f hf)),
        lookup_foldl_skip s (strLower f ++ "_aliases".toList) pre []
          (hskip_al pre hmem_pre hne_pre)]
      rfl


theorem c5_witness :
    ((lookupD "suggests".toList
        ((build_record "p".toList
          [("Package".toList, "p".toList), ("Suggests".toList, [])]).dependencies)).isSome
      = (lookupD "Suggests".toList
          ([("Package".toList, "p".toList), ("Suggests".toList, [])] : Stanza)).isSome) ∧
    (lookupD "suggests".toList
        ((build_record "p".toList
          [("Package".toList, "p".toList), ("Suggests".toList, [])]).dependencies)
      = some (DepValue.items []) ∧
     lookupD "suggests_aliases".toList
        ((build_record "p".toList
          [("Package".toList, "p".toList), ("Suggests".toList, [])]).dependencies)
      = none) :=
  ⟨(c5_amended_presence_and_empty "p".toList
      [("Package".toList, "p".toList), ("Suggests".toList, [])]
      "Suggests".toList (by decide)).1,
   (c5_amended_presence_and_empty "p".toList
      [("Package".toList, "p".toList), ("Suggests".toList, [])]
      "Suggests".toList (by decide)).2 [] (by decide) (by decide)⟩
